import Mathlib

/-!
Verification of the synarion-engine generational resource-storage core.

The definitions below are a shallow embedding of the Rust source:

* `Handle`        — `syn_core/src/handle.rs` (`Handle<T>`: an index/generation pair;
                    the phantom type parameter plays no semantic role and is dropped).
* `SlotMap`       — `syn_collections/src/slot_map.rs`.
* `Pool`          — `syn_core/src/pool.rs`.
* `Arena`         — `syn_collections/src/arena.rs`.
* `SparseSet`     — `syn_collections/src/sparse_set.rs`.

Modelling conventions: machine integers are modelled as `Nat`; the `u32`
truncation performed by `entries.len() as u32` and the wrapping increment
`generation.wrapping_add(1)` are made explicit with `% u32Size`.  Operations
that can panic in Rust (indexing with `[]`, `unreachable!`, `expect`) return
`Option`, with `none` standing for the panic; operations whose every path in
the source is panic-free are total.  `Vec<T>` is modelled as `List`.
-/

namespace Synarion

/-- Size of the `u32` value space; `wrapping_add` and `as u32` reduce modulo this. -/
def u32Size : Nat := 4294967296

/-- Embeds `Handle<T>` from `syn_core/src/handle.rs`: an (index, generation) pair. -/
structure Handle where
  index : Nat
  generation : Nat
deriving DecidableEq, Repr

/-- Embeds `Entry<T>` from `syn_collections/src/slot_map.rs`. -/
inductive Entry (α : Type) where
  | occupied (value : α) (generation : Nat)
  | vacant (next_free : Option Nat) (generation : Nat)
deriving DecidableEq, Repr

/-- Embeds `SlotMap<T>` from `syn_collections/src/slot_map.rs`. -/
structure SlotMap (α : Type) where
  entries : List (Entry α)
  free_head : Option Nat
  len : Nat
deriving DecidableEq, Repr

/-- Embeds `SlotMap::new`. -/
def SlotMap.new {α : Type} : SlotMap α := ⟨[], none, 0⟩

/-- Embeds `SlotMap::insert`.  The result is `none` exactly on the source's two
panic paths: `free_head` out of range (vector indexing panic) and `free_head`
pointing at an occupied slot (`unreachable!`). -/
def SlotMap.insert {α : Type} (s : SlotMap α) (value : α) : Option (Handle × SlotMap α) :=
  match s.free_head with
  | some free_index =>
    match s.entries[free_index]? with
    | some (Entry.vacant next_free generation) =>
        some (⟨free_index, generation⟩,
          ⟨s.entries.set free_index (Entry.occupied value generation), next_free, s.len + 1⟩)
    | some (Entry.occupied _ _) => none
    | none => none
  | none =>
    some (⟨s.entries.length % u32Size, 0⟩,
      ⟨s.entries ++ [Entry.occupied value 0], none, s.len + 1⟩)

/-- Embeds `SlotMap::remove`.  Total: every path in the source returns. -/
def SlotMap.remove {α : Type} (s : SlotMap α) (h : Handle) : Option α × SlotMap α :=
  match s.entries[h.index]? with
  | some (Entry.occupied value generation) =>
    if generation = h.generation then
      (some value,
        ⟨s.entries.set h.index (Entry.vacant s.free_head ((generation + 1) % u32Size)),
          some h.index, s.len - 1⟩)
    else (none, s)
  | _ => (none, s)

/-- Embeds `SlotMap::get`. -/
def SlotMap.get {α : Type} (s : SlotMap α) (h : Handle) : Option α :=
  match s.entries[h.index]? with
  | some (Entry.occupied value generation) =>
    if generation = h.generation then some value else none
  | _ => none

/-- Embeds `SlotMap::contains`. -/
def SlotMap.contains {α : Type} (s : SlotMap α) (h : Handle) : Bool :=
  match s.entries[h.index]? with
  | some (Entry.occupied _ generation) => generation == h.generation
  | _ => false

/-- Embeds `SlotMap::is_empty`. -/
def SlotMap.isEmpty {α : Type} (s : SlotMap α) : Bool := s.len == 0

/-- Embeds `Slot<T>` from `syn_core/src/pool.rs`.  Unlike `Entry`, the vacant
variant of the source carries no generation field. -/
inductive PSlot (α : Type) where
  | occupied (value : α) (generation : Nat)
  | vacant (next_free : Option Nat)
deriving DecidableEq, Repr

/-- Embeds `Pool<T>` from `syn_core/src/pool.rs` (the `PhantomData` marker is dropped). -/
structure Pool (α : Type) where
  slots : List (PSlot α)
  first_free : Option Nat
  len : Nat
deriving DecidableEq, Repr

/-- Embeds `Pool::new`. -/
def Pool.new {α : Type} : Pool α := ⟨[], none, 0⟩

/-- Embeds `Pool::insert`.  `none` is the source's panic path: `first_free`
out of range.  A `first_free` pointing at an occupied slot falls through to
the append branch in the source, and does so here as well. -/
def Pool.insert {α : Type} (s : Pool α) (value : α) : Option (Handle × Pool α) :=
  match s.first_free with
  | some index =>
    match s.slots[index]? with
    | none => none
    | some (PSlot.vacant next_free) =>
        some (⟨index, 0⟩, ⟨s.slots.set index (PSlot.occupied value 0), next_free, s.len + 1⟩)
    | some (PSlot.occupied _ _) =>
        some (⟨s.slots.length % u32Size, 0⟩,
          ⟨s.slots ++ [PSlot.occupied value 0], s.first_free, s.len + 1⟩)
  | none =>
    some (⟨s.slots.length % u32Size, 0⟩,
      ⟨s.slots ++ [PSlot.occupied value 0], none, s.len + 1⟩)

/-- Embeds `Pool::remove`.  Total: every path in the source returns. -/
def Pool.remove {α : Type} (s : Pool α) (h : Handle) : Option α × Pool α :=
  match s.slots[h.index]? with
  | some (PSlot.occupied value generation) =>
    if generation = h.generation then
      (some value, ⟨s.slots.set h.index (PSlot.vacant s.first_free), some h.index, s.len - 1⟩)
    else (none, s)
  | _ => (none, s)

/-- Embeds `Pool::get`. -/
def Pool.get {α : Type} (s : Pool α) (h : Handle) : Option α :=
  match s.slots[h.index]? with
  | some (PSlot.occupied value generation) =>
    if generation = h.generation then some value else none
  | _ => none

/-- Embeds `Pool::is_empty`. -/
def Pool.isEmpty {α : Type} (s : Pool α) : Bool := s.len == 0

/-- Occupancy test on a slot-map entry. -/
def Entry.isOccupied {α : Type} : Entry α → Bool
  | Entry.occupied _ _ => true
  | Entry.vacant _ _ => false

/-- Occupancy test on a pool slot. -/
def PSlot.isOccupied {α : Type} : PSlot α → Bool
  | PSlot.occupied _ _ => true
  | PSlot.vacant _ => false

/-- A mutating operation on a generational store: an insert of a value, or a
remove through the handle with the given index and generation. -/
inductive StoreOp (α : Type) where
  | ins (v : α)
  | rem (index generation : Nat)

/-- Runs a sequence of operations on a `SlotMap`, counting the inserts and the
successful removes; `none` if some insert panicked. -/
def SlotMap.runCount {α : Type} : SlotMap α → List (StoreOp α) →
    Option (SlotMap α × Nat × Nat)
  | s, [] => some (s, 0, 0)
  | s, StoreOp.ins v :: rest =>
    match s.insert v with
    | none => none
    | some (_, s') => (SlotMap.runCount s' rest).map (fun t => (t.1, t.2.1 + 1, t.2.2))
  | s, StoreOp.rem i g :: rest =>
    match s.remove ⟨i, g⟩ with
    | (some _, s') => (SlotMap.runCount s' rest).map (fun t => (t.1, t.2.1, t.2.2 + 1))
    | (none, s') => SlotMap.runCount s' rest

/-- Runs a sequence of operations on a `Pool`, counting the inserts and the
successful removes; `none` if some insert panicked. -/
def Pool.runCount {α : Type} : Pool α → List (StoreOp α) →
    Option (Pool α × Nat × Nat)
  | s, [] => some (s, 0, 0)
  | s, StoreOp.ins v :: rest =>
    match s.insert v with
    | none => none
    | some (_, s') => (Pool.runCount s' rest).map (fun t => (t.1, t.2.1 + 1, t.2.2))
  | s, StoreOp.rem i g :: rest =>
    match s.remove ⟨i, g⟩ with
    | (some _, s') => (Pool.runCount s' rest).map (fun t => (t.1, t.2.1, t.2.2 + 1))
    | (none, s') => Pool.runCount s' rest

/-- Embeds `Arena<T>` from `syn_collections/src/arena.rs`. -/
structure Arena (α : Type) where
  chunks : List (List α)
  chunk_size : Nat
deriving DecidableEq, Repr

/-- Embeds `Arena::with_chunk_size`. -/
def Arena.withChunkSize {α : Type} (n : Nat) : Arena α := ⟨[], n⟩

/-- Embeds `Arena::new` (default chunk size 1024). -/
def Arena.new {α : Type} : Arena α := Arena.withChunkSize 1024

/-- Embeds `Arena::needs_new_chunk`. -/
def Arena.needsNewChunk {α : Type} (a : Arena α) : Bool :=
  a.chunks.isEmpty ||
    (match a.chunks.getLast? with
     | none => true
     | some c => a.chunk_size ≤ c.length)

/-- Embeds `Arena::alloc`.  The returned reference is modelled by the chunk
position (chunk index, offset) of the stored value; `none` is the source's
`expect` panic path (provably unreachable). -/
def Arena.alloc {α : Type} (a : Arena α) (value : α) : Option ((Nat × Nat) × Arena α) :=
  let cs := if a.needsNewChunk then a.chunks ++ [[]] else a.chunks
  match cs.getLast? with
  | none => none
  | some c =>
    some ((cs.length - 1, c.length), ⟨cs.set (cs.length - 1) (c ++ [value]), a.chunk_size⟩)

/-- Embeds `Arena::clear`. -/
def Arena.clear {α : Type} (a : Arena α) : Arena α := ⟨[], a.chunk_size⟩

/-- Embeds `Arena::len`. -/
def Arena.len {α : Type} (a : Arena α) : Nat :=
  (a.chunks.map List.length).sum

/-- Dereferences a chunk position: what a reference handed out by `alloc`
reads back. -/
def Arena.readAt {α : Type} (a : Arena α) (p : Nat × Nat) : Option α :=
  match a.chunks[p.1]? with
  | none => none
  | some chunk => chunk[p.2]?

/-- Runs a sequence of further `alloc` calls. -/
def Arena.allocMany {α : Type} : Arena α → List α → Option (Arena α)
  | a, [] => some a
  | a, v :: rest =>
    match a.alloc v with
    | none => none
    | some (_, a') => Arena.allocMany a' rest

/-- Embeds `SparseSet<T>` from `syn_collections/src/sparse_set.rs`.  The
`u32` external index is modelled as `Nat` (the `as usize` casts in the source
are lossless). -/
structure SparseSet (α : Type) where
  sparse : List (Option Nat)
  dense : List (Nat × α)
deriving DecidableEq, Repr

/-- Embeds `SparseSet::new`. -/
def SparseSet.new {α : Type} : SparseSet α := ⟨[], []⟩

/-- Embeds `SparseSet::insert`.  `none` models the source's two indexing
panics (`self.sparse[idx]` and `self.dense[dense_idx]`), both unreachable
from reachable states. -/
def SparseSet.insert {α : Type} (s : SparseSet α) (index : Nat) (value : α) :
    Option (SparseSet α) :=
  let sp := if s.sparse.length ≤ index
    then s.sparse ++ List.replicate (index + 1 - s.sparse.length) none
    else s.sparse
  match sp[index]? with
  | none => none
  | some (some dense_idx) =>
    match s.dense[dense_idx]? with
    | none => none
    | some q => some ⟨sp, s.dense.set dense_idx (q.1, value)⟩
  | some none =>
    some ⟨sp.set index (some s.dense.length), s.dense ++ [(index, value)]⟩

/-- Embeds `SparseSet::remove`.  The `swap_remove` is modelled by writing the
last element over the removed position and then dropping the last element;
`none` models the source's indexing panics. -/
def SparseSet.remove {α : Type} (s : SparseSet α) (index : Nat) :
    Option (Option α × SparseSet α) :=
  if s.sparse.length ≤ index then some (none, s)
  else
    match s.sparse[index]? with
    | none => none
    | some none => some (none, s)
    | some (some dense_idx) =>
      let sp := s.sparse.set index none
      match s.dense[dense_idx]? with
      | none => none
      | some removed =>
        let newDense := (s.dense.set dense_idx (s.dense.getLastD removed)).dropLast
        if dense_idx < newDense.length then
          match newDense[dense_idx]? with
          | none => none
          | some moved =>
            if moved.1 < sp.length then
              some (some removed.2, ⟨sp.set moved.1 (some dense_idx), newDense⟩)
            else none
        else some (some removed.2, ⟨sp, newDense⟩)

/-- Embeds `SparseSet::get`.  The outer `Option` is the panic on
`self.dense[dense_idx]`; `some none` is the source's `None` answer. -/
def SparseSet.get {α : Type} (s : SparseSet α) (index : Nat) : Option (Option α) :=
  match s.sparse[index]? with
  | none => some none
  | some none => some none
  | some (some dense_idx) =>
    match s.dense[dense_idx]? with
    | none => none
    | some q => some (some q.2)

/-- Embeds `SparseSet::get_mut`; as an observation it reads the value the
returned mutable reference points at. -/
def SparseSet.getMut {α : Type} (s : SparseSet α) (index : Nat) : Option (Option α) :=
  match s.sparse[index]? with
  | none => some none
  | some none => some none
  | some (some dense_idx) =>
    match s.dense[dense_idx]? with
    | none => none
    | some q => some (some q.2)

/-- Embeds `SparseSet::contains`. -/
def SparseSet.contains {α : Type} (s : SparseSet α) (index : Nat) : Bool :=
  decide (index < s.sparse.length) &&
    (match s.sparse[index]? with
     | some (some _) => true
     | _ => false)

/-- Embeds `SparseSet::len`. -/
def SparseSet.len {α : Type} (s : SparseSet α) : Nat := s.dense.length

/-- States reachable from `SparseSet::new` by the mutating public operations,
none of which panicked. -/
inductive SparseSet.Reachable {α : Type} : SparseSet α → Prop where
  | new : SparseSet.Reachable SparseSet.new
  | insert {s s' : SparseSet α} {i : Nat} {v : α} :
      SparseSet.Reachable s → s.insert i v = some s' → SparseSet.Reachable s'
  | remove {s : SparseSet α} {i : Nat} {r : Option α × SparseSet α} :
      SparseSet.Reachable s → s.remove i = some r → SparseSet.Reachable r.2

/-- The sparse/dense consistency invariant: dense rows point back at their
sparse cell, and every occupied sparse cell points at a dense row keyed by
that cell's index. -/
structure SparseSet.Inv {α : Type} (s : SparseSet α) : Prop where
  dense_to_sparse : ∀ (d : Nat) (q : Nat × α), s.dense[d]? = some q →
    s.sparse[q.1]? = some (some d)
  sparse_to_dense : ∀ (i d : Nat), s.sparse[i]? = some (some d) →
    ∃ q : Nat × α, s.dense[d]? = some q ∧ q.1 = i

/-- C1: the claim requires that after `remove(h1)` succeeds, a reinsert that
reuses `h1`'s index yields a handle with a different generation, with
`get(h1) = none`.  `Pool` violates this: its vacant slots drop the
generation, `insert` always issues generation 0, so the reused handle equals
`h1` and `get(h1)` resurrects to the new value. -/
theorem pool_reuse_resurrects_stale_handle :
    (Pool.new : Pool Nat).insert 10 = some (⟨0, 0⟩, ⟨[PSlot.occupied 10 0], none, 1⟩)
    ∧ (⟨[PSlot.occupied 10 0], none, 1⟩ : Pool Nat).remove ⟨0, 0⟩ =
        (some 10, ⟨[PSlot.vacant none], some 0, 0⟩)
    ∧ (⟨[PSlot.vacant none], some 0, 0⟩ : Pool Nat).insert 20 =
        some (⟨0, 0⟩, ⟨[PSlot.occupied 20 0], none, 1⟩)
    ∧ (⟨0, 0⟩ : Handle).generation = (⟨0, 0⟩ : Handle).generation
    ∧ (⟨[PSlot.occupied 20 0], none, 1⟩ : Pool Nat).get ⟨0, 0⟩ = some 20 := by
  refine ⟨rfl, rfl, rfl, rfl, rfl⟩

/-- C2: the claim requires a successful `remove` to leave a vacant slot whose
stored generation is the old generation plus one.  `SlotMap` does exactly
that, but `Pool` stores no generation in the vacant slot at all, and the next
insert at that slot reissues generation 0 instead of old + 1. -/
theorem pool_remove_discards_generation :
    (⟨[Entry.occupied 10 0], none, 1⟩ : SlotMap Nat).remove ⟨0, 0⟩ =
      (some 10, ⟨[Entry.vacant none 1], some 0, 0⟩)
    ∧ (⟨[PSlot.occupied 10 0], none, 1⟩ : Pool Nat).remove ⟨0, 0⟩ =
        (some 10, ⟨[PSlot.vacant none], some 0, 0⟩)
    ∧ ((⟨[PSlot.vacant none], some 0, 0⟩ : Pool Nat).insert 20).map
        (fun r => r.1.generation) = some 0 := by
  refine ⟨rfl, rfl, rfl⟩

/-- C3: `SlotMap` and `Pool` are not semantically equivalent.  On the common
operation sequence insert 1; remove ⟨0,0⟩; insert 2; get ⟨0,0⟩ from the empty
container, the third operation returns handle ⟨0,1⟩ on `SlotMap` but ⟨0,0⟩ on
`Pool`, and the final `get` returns `none` on `SlotMap` but `some 2` on `Pool`. -/
theorem slotMap_pool_divergence :
    (SlotMap.new : SlotMap Nat).insert 1 = some (⟨0, 0⟩, ⟨[Entry.occupied 1 0], none, 1⟩)
    ∧ (⟨[Entry.occupied 1 0], none, 1⟩ : SlotMap Nat).remove ⟨0, 0⟩ =
        (some 1, ⟨[Entry.vacant none 1], some 0, 0⟩)
    ∧ (⟨[Entry.vacant none 1], some 0, 0⟩ : SlotMap Nat).insert 2 =
        some (⟨0, 1⟩, ⟨[Entry.occupied 2 1], none, 1⟩)
    ∧ (⟨[Entry.occupied 2 1], none, 1⟩ : SlotMap Nat).get ⟨0, 0⟩ = none
    ∧ (Pool.new : Pool Nat).insert 1 = some (⟨0, 0⟩, ⟨[PSlot.occupied 1 0], none, 1⟩)
    ∧ (⟨[PSlot.occupied 1 0], none, 1⟩ : Pool Nat).remove ⟨0, 0⟩ =
        (some 1, ⟨[PSlot.vacant none], some 0, 0⟩)
    ∧ (⟨[PSlot.vacant none], some 0, 0⟩ : Pool Nat).insert 2 =
        some (⟨0, 0⟩, ⟨[PSlot.occupied 2 0], none, 1⟩)
    ∧ (⟨[PSlot.occupied 2 0], none, 1⟩ : Pool Nat).get ⟨0, 0⟩ = some 2
    ∧ (⟨0, 1⟩ : Handle) ≠ (⟨0, 0⟩ : Handle)
    ∧ (none : Option Nat) ≠ some 2 := by
  refine ⟨rfl, rfl, rfl, rfl, rfl, rfl, rfl, rfl, by decide, by decide⟩

/-- A list index that resolves to `some` is within bounds. -/
theorem lt_length_of_get_some {α : Type} {l : List α} {i : Nat} {a : α}
    (h : l[i]? = some a) : i < l.length :=
  (List.getElem?_eq_some.mp h).1

/-- C4: removing with an out-of-range index, a vacant slot, or a mismatched
generation returns `none` and leaves the whole store unchanged, on both
`SlotMap` and `Pool`. -/
theorem remove_invalid_handle_noop :
    (∀ (α : Type) (s : SlotMap α) (h : Handle),
      (s.entries.length ≤ h.index
        ∨ (∃ nf g, s.entries[h.index]? = some (Entry.vacant nf g))
        ∨ (∃ v g, s.entries[h.index]? = some (Entry.occupied v g) ∧ g ≠ h.generation)) →
      s.remove h = (none, s))
    ∧ (∀ (α : Type) (p : Pool α) (h : Handle),
      (p.slots.length ≤ h.index
        ∨ (∃ nf, p.slots[h.index]? = some (PSlot.vacant nf))
        ∨ (∃ v g, p.slots[h.index]? = some (PSlot.occupied v g) ∧ g ≠ h.generation)) →
      p.remove h = (none, p)) := by
  constructor
  · intro α s h hinv
    rcases hE : s.entries[h.index]? with - | e
    · simp [SlotMap.remove, hE]
    · rcases e with ⟨v, g⟩ | ⟨nf, g⟩
      · have hg : g ≠ h.generation := by
          rcases hinv with hlen | ⟨nf', g', hveq⟩ | ⟨v', g', hoeq, hne⟩
          · exact absurd (lt_length_of_get_some hE) (Nat.not_lt_of_le hlen)
          · rw [hE] at hveq; simp at hveq
          · rw [hE] at hoeq
            obtain ⟨-, rfl⟩ : v = v' ∧ g = g' := by simpa using hoeq
            exact hne
        simp [SlotMap.remove, hE, hg]
      · simp [SlotMap.remove, hE]
  · intro α p h hinv
    rcases hE : p.slots[h.index]? with - | e
    · simp [Pool.remove, hE]
    · rcases e with ⟨v, g⟩ | ⟨nf⟩
      · have hg : g ≠ h.generation := by
          rcases hinv with hlen | ⟨nf', hveq⟩ | ⟨v', g', hoeq, hne⟩
          · exact absurd (lt_length_of_get_some hE) (Nat.not_lt_of_le hlen)
          · rw [hE] at hveq; simp at hveq
          · rw [hE] at hoeq
            obtain ⟨-, rfl⟩ : v = v' ∧ g = g' := by simpa using hoeq
            exact hne
        simp [Pool.remove, hE, hg]
      · simp [Pool.remove, hE]

/-- Witness for C4 at the empty stores with handle ⟨0, 0⟩ (out of range). -/
theorem remove_invalid_handle_noop_witness :
    (SlotMap.new : SlotMap Nat).remove ⟨0, 0⟩ = (none, SlotMap.new)
    ∧ (Pool.new : Pool Nat).remove ⟨0, 0⟩ = (none, Pool.new) :=
  ⟨remove_invalid_handle_noop.1 Nat SlotMap.new ⟨0, 0⟩ (Or.inl (by decide)),
   remove_invalid_handle_noop.2 Nat Pool.new ⟨0, 0⟩ (Or.inl (by decide))⟩

/-- Unfolding of `SlotMap::insert` in the exhausted-free-list branch. -/
theorem SlotMap.insert_of_no_free {α : Type} (s : SlotMap α) (v : α)
    (hF : s.free_head = none) :
    s.insert v = some (⟨s.entries.length % u32Size, 0⟩,
      ⟨s.entries ++ [Entry.occupied v 0], none, s.len + 1⟩) := by
  rw [SlotMap.insert, hF]

/-- Appending `insert` into a store that already holds exactly 2^32 slots
issues the truncated index 0. -/
theorem SlotMap.insert_mk_no_free {α : Type} (L : List (Entry α)) (n : Nat) (v : α)
    (hL : L.length = u32Size) :
    (⟨L, none, n⟩ : SlotMap α).insert v
      = some (⟨0, 0⟩, ⟨L ++ [Entry.occupied v 0], none, n + 1⟩) := by
  have h := SlotMap.insert_of_no_free (⟨L, none, n⟩ : SlotMap α) v rfl
  rw [h, show (⟨L, none, n⟩ : SlotMap α).entries = L from rfl, hL, Nat.mod_self]

/-- Looking up handle ⟨0, 0⟩ when slot 0 is occupied at a nonzero generation
answers `none`. -/
theorem SlotMap.get_zero_mismatch {α : Type} (e : α) (g : Nat) (t : List (Entry α))
    (fh : Option Nat) (n : Nat) (hg : g ≠ 0) :
    (⟨Entry.occupied e g :: t, fh, n⟩ : SlotMap α).get ⟨0, 0⟩ = none := by
  simp [SlotMap.get, hg]

/-- C5 counterexample: the round trip fails as universally stated, because the
source truncates `entries.len() as u32`.  In a store that already holds 2^32
slots (slot 0 occupied at generation 1), `insert 7` appends at position 2^32
but returns handle ⟨0, 0⟩, and `get` of that handle answers `none`, not
`some 7`. -/
theorem insert_roundtrip_cex :
    (⟨Entry.occupied 0 1 :: List.replicate (u32Size - 1) (Entry.occupied 0 0), none,
        u32Size⟩ : SlotMap Nat).insert 7
      = some (⟨0, 0⟩,
        ⟨(Entry.occupied 0 1 :: List.replicate (u32Size - 1) (Entry.occupied 0 0))
            ++ [Entry.occupied 7 0], none, u32Size + 1⟩)
    ∧ (⟨(Entry.occupied 0 1 :: List.replicate (u32Size - 1) (Entry.occupied 0 0))
          ++ [Entry.occupied 7 0], none, u32Size + 1⟩ : SlotMap Nat).get ⟨0, 0⟩
      = none := by
  have h1 : (1 : Nat) ≤ u32Size := by norm_num [u32Size]
  have hlen :
      (Entry.occupied (0 : Nat) 1 :: List.replicate (u32Size - 1) (Entry.occupied 0 0)).length
        = u32Size := by
    rw [List.length_cons, List.length_replicate, Nat.sub_add_cancel h1]
  constructor
  · exact SlotMap.insert_mk_no_free _ u32Size 7 hlen
  · rw [List.cons_append]
    exact SlotMap.get_zero_mismatch 0 1 _ none (u32Size + 1) one_ne_zero

/-- C5 (amended): in any store with fewer than 2^32 slots — the source's
stated assumption that a `SlotMap` never holds more than `u32::MAX` entries —
`get` of the handle returned by a (non-panicking) `insert v` yields `some v`,
on both `SlotMap` and `Pool`. -/
theorem insert_roundtrip :
    (∀ (α : Type) (s : SlotMap α) (v : α) (r : Handle × SlotMap α),
      s.entries.length < u32Size → s.insert v = some r → r.2.get r.1 = some v)
    ∧ (∀ (α : Type) (p : Pool α) (v : α) (r : Handle × Pool α),
      p.slots.length < u32Size → p.insert v = some r → r.2.get r.1 = some v) := by
  constructor
  · intro α s v r hbound hins
    rcases hF : s.free_head with - | fi
    · simp only [SlotMap.insert, hF] at hins
      obtain rfl := (Option.some.inj hins).symm
      have hm : s.entries.length % u32Size = s.entries.length := Nat.mod_eq_of_lt hbound
      simp [SlotMap.get, hm]
    · rcases hE : s.entries[fi]? with - | e
      · simp [SlotMap.insert, hF, hE] at hins
      · rcases e with ⟨v', g⟩ | ⟨nf, g⟩
        · simp [SlotMap.insert, hF, hE] at hins
        · simp only [SlotMap.insert, hF, hE] at hins
          obtain rfl := (Option.some.inj hins).symm
          have hfi : fi < s.entries.length := lt_length_of_get_some hE
          simp [SlotMap.get, List.getElem?_set_self, hfi]
  · intro α p v r hbound hins
    rcases hF : p.first_free with - | fi
    · simp only [Pool.insert, hF] at hins
      obtain rfl := (Option.some.inj hins).symm
      have hm : p.slots.length % u32Size = p.slots.length := Nat.mod_eq_of_lt hbound
      simp [Pool.get, hm]
    · rcases hE : p.slots[fi]? with - | e
      · simp [Pool.insert, hF, hE] at hins
      · rcases e with ⟨v', g⟩ | ⟨nf⟩
        · simp only [Pool.insert, hF, hE] at hins
          obtain rfl := (Option.some.inj hins).symm
          have hm : p.slots.length % u32Size = p.slots.length := Nat.mod_eq_of_lt hbound
          simp [Pool.get, hm]
        · simp only [Pool.insert, hF, hE] at hins
          obtain rfl := (Option.some.inj hins).symm
          have hfi : fi < p.slots.length := lt_length_of_get_some hE
          simp [Pool.get, List.getElem?_set_self, hfi]

/-- Witness for C5 at the empty stores and value 5. -/
theorem insert_roundtrip_witness :
    SlotMap.get ⟨[Entry.occupied 5 0], none, 1⟩ (⟨0, 0⟩ : Handle) = some 5
    ∧ Pool.get ⟨[PSlot.occupied 5 0], none, 1⟩ (⟨0, 0⟩ : Handle) = some 5 :=
  ⟨insert_roundtrip.1 Nat SlotMap.new 5 (⟨0, 0⟩, ⟨[Entry.occupied 5 0], none, 1⟩)
      (by norm_num [SlotMap.new, u32Size]) rfl,
   insert_roundtrip.2 Nat Pool.new 5 (⟨0, 0⟩, ⟨[PSlot.occupied 5 0], none, 1⟩)
      (by norm_num [Pool.new, u32Size]) rfl⟩

/-- C9: after a successful `remove h`, the very next `insert` reuses exactly
`h.index`, because removal pushes the freed index on the free-list head and
insertion pops the head.  Holds on both `SlotMap` and `Pool`. -/
theorem lifo_slot_reuse :
    (∀ (α : Type) (s : SlotMap α) (h : Handle) (v : α) (s' : SlotMap α) (w : α),
      s.remove h = (some v, s') →
      ∃ r, s'.insert w = some r ∧ r.1.index = h.index)
    ∧ (∀ (α : Type) (p : Pool α) (h : Handle) (v : α) (p' : Pool α) (w : α),
      p.remove h = (some v, p') →
      ∃ r, p'.insert w = some r ∧ r.1.index = h.index) := by
  constructor
  · intro α s h v s' w hrem
    rcases hE : s.entries[h.index]? with - | e
    · simp [SlotMap.remove, hE] at hrem
    · rcases e with ⟨v', g⟩ | ⟨nf, g⟩
      · simp only [SlotMap.remove, hE] at hrem
        by_cases hg : g = h.generation
        · rw [if_pos hg] at hrem
          injection hrem with h1 h2
          subst h2
          have hlt : h.index < s.entries.length := lt_length_of_get_some hE
          refine ⟨(⟨h.index, (g + 1) % u32Size⟩,
            ⟨(s.entries.set h.index
                (Entry.vacant s.free_head ((g + 1) % u32Size))).set h.index
                  (Entry.occupied w ((g + 1) % u32Size)),
              s.free_head, (s.len - 1) + 1⟩), ?_, rfl⟩
          simp [SlotMap.insert, List.getElem?_set_self, hlt]
        · rw [if_neg hg] at hrem
          injection hrem with h1 h2
          exact absurd h1 (by simp)
      · simp [SlotMap.remove, hE] at hrem
  · intro α p h v p' w hrem
    rcases hE : p.slots[h.index]? with - | e
    · simp [Pool.remove, hE] at hrem
    · rcases e with ⟨v', g⟩ | ⟨nf⟩
      · simp only [Pool.remove, hE] at hrem
        by_cases hg : g = h.generation
        · rw [if_pos hg] at hrem
          injection hrem with h1 h2
          subst h2
          have hlt : h.index < p.slots.length := lt_length_of_get_some hE
          refine ⟨(⟨h.index, 0⟩,
            ⟨(p.slots.set h.index (PSlot.vacant p.first_free)).set h.index
                (PSlot.occupied w 0),
              p.first_free, (p.len - 1) + 1⟩), ?_, rfl⟩
          simp [Pool.insert, List.getElem?_set_self, hlt]
        · rw [if_neg hg] at hrem
          injection hrem with h1 h2
          exact absurd h1 (by simp)
      · simp [Pool.remove, hE] at hrem

/-- Witness for C9 on one-element stores. -/
theorem lifo_slot_reuse_witness :
    (∃ r, (⟨[Entry.vacant none 1], some 0, 0⟩ : SlotMap Nat).insert 9 = some r
        ∧ r.1.index = (⟨0, 0⟩ : Handle).index)
    ∧ (∃ r, (⟨[PSlot.vacant none], some 0, 0⟩ : Pool Nat).insert 9 = some r
        ∧ r.1.index = (⟨0, 0⟩ : Handle).index) :=
  ⟨lifo_slot_reuse.1 Nat ⟨[Entry.occupied 3 0], none, 1⟩ ⟨0, 0⟩ 3
      ⟨[Entry.vacant none 1], some 0, 0⟩ 9 rfl,
   lifo_slot_reuse.2 Nat ⟨[PSlot.occupied 3 0], none, 1⟩ ⟨0, 0⟩ 3
      ⟨[PSlot.vacant none], some 0, 0⟩ 9 rfl⟩

/-- Positivity of `countP` from one matching element. -/
theorem countP_pos_of_get {α : Type} (p : α → Bool) {l : List α} {i : Nat} {a : α}
    (h : l[i]? = some a) (ha : p a = true) : 0 < l.countP p := by
  induction l generalizing i with
  | nil => simp at h
  | cons x xs ih =>
    cases i with
    | zero =>
      obtain rfl : x = a := by simpa using h
      simp [List.countP_cons, ha]
    | succ n =>
      have := ih (i := n) (by simpa using h)
      simp only [List.countP_cons]
      omega

/-- Overwriting a matching element with a non-matching one drops `countP` by one. -/
theorem countP_set_true_false {α : Type} (p : α → Bool) {l : List α} {i : Nat} {a : α}
    (b : α) (h : l[i]? = some a) (ha : p a = true) (hb : p b = false) :
    (l.set i b).countP p + 1 = l.countP p := by
  induction l generalizing i with
  | nil => simp at h
  | cons x xs ih =>
    cases i with
    | zero =>
      obtain rfl : x = a := by simpa using h
      simp [List.countP_cons, ha, hb]
    | succ n =>
      have := ih (i := n) (by simpa using h)
      simp only [List.set_cons_succ, List.countP_cons]
      omega

/-- Overwriting a non-matching element with a matching one raises `countP` by one. -/
theorem countP_set_false_true {α : Type} (p : α → Bool) {l : List α} {i : Nat} {a : α}
    (b : α) (h : l[i]? = some a) (ha : p a = false) (hb : p b = true) :
    (l.set i b).countP p = l.countP p + 1 := by
  induction l generalizing i with
  | nil => simp at h
  | cons x xs ih =>
    cases i with
    | zero =>
      obtain rfl : x = a := by simpa using h
      simp [List.countP_cons, ha, hb]
    | succ n =>
      have := ih (i := n) (by simpa using h)
      simp only [List.set_cons_succ, List.countP_cons]
      omega

/-- A non-panicking `SlotMap::insert` raises both the stored `len` field and
the number of occupied entries by one. -/
theorem SlotMap.insert_len_occ {α : Type} {s : SlotMap α} {v : α}
    {r : Handle × SlotMap α} (h : s.insert v = some r) :
    r.2.len = s.len + 1
    ∧ r.2.entries.countP Entry.isOccupied = s.entries.countP Entry.isOccupied + 1 := by
  rcases hF : s.free_head with - | fi
  · simp only [SlotMap.insert, hF] at h
    obtain rfl := (Option.some.inj h).symm
    refine ⟨rfl, ?_⟩
    simp [List.countP_append, Entry.isOccupied]
  · rcases hE : s.entries[fi]? with - | e
    · simp [SlotMap.insert, hF, hE] at h
    · rcases e with ⟨v', g⟩ | ⟨nf, g⟩
      · simp [SlotMap.insert, hF, hE] at h
      · simp only [SlotMap.insert, hF, hE] at h
        obtain rfl := (Option.some.inj h).symm
        refine ⟨rfl, ?_⟩
        exact countP_set_false_true Entry.isOccupied _ hE rfl rfl

/-- Case analysis of a successful `SlotMap::remove`. -/
theorem SlotMap.remove_some_elim {α : Type} {s : SlotMap α} {h : Handle} {v : α}
    {s' : SlotMap α} (hr : s.remove h = (some v, s')) :
    ∃ g, s.entries[h.index]? = some (Entry.occupied v g)
      ∧ s'.entries = s.entries.set h.index (Entry.vacant s.free_head ((g + 1) % u32Size))
      ∧ s'.len = s.len - 1 := by
  rcases hE : s.entries[h.index]? with - | e
  · simp [SlotMap.remove, hE] at hr
  · rcases e with ⟨v', g⟩ | ⟨nf, g⟩
    · simp only [SlotMap.remove, hE] at hr
      by_cases hg : g = h.generation
      · rw [if_pos hg] at hr
        injection hr with h1 h2
        obtain rfl := Option.some.inj h1
        refine ⟨g, rfl, ?_, ?_⟩
        · rw [← h2]
        · rw [← h2]
      · rw [if_neg hg] at hr
        injection hr with h1 h2
        exact absurd h1 (by simp)
    · simp [SlotMap.remove, hE] at hr

/-- A failing `SlotMap::remove` leaves the store untouched. -/
theorem SlotMap.remove_none_elim {α : Type} {s : SlotMap α} {h : Handle}
    {s' : SlotMap α} (hr : s.remove h = (none, s')) : s' = s := by
  rcases hE : s.entries[h.index]? with - | e
  · simp only [SlotMap.remove, hE] at hr
    injection hr with h1 h2
    exact h2.symm
  · rcases e with ⟨v', g⟩ | ⟨nf, g⟩
    · simp only [SlotMap.remove, hE] at hr
      by_cases hg : g = h.generation
      · rw [if_pos hg] at hr
        injection hr with h1 h2
        exact absurd h1 (by simp)
      · rw [if_neg hg] at hr
        injection hr with h1 h2
        exact h2.symm
    · simp only [SlotMap.remove, hE] at hr
      injection hr with h1 h2
      exact h2.symm

/-- Run-length accounting for `SlotMap`: if the stored `len` agrees with the
occupied-entry count at the start, it does at the end, and the final `len`
balances inserts against successful removes. -/
theorem SlotMap.runCount_spec {α : Type} (ops : List (StoreOp α)) (s : SlotMap α)
    (hinv : s.len = s.entries.countP Entry.isOccupied)
    (t : SlotMap α × Nat × Nat) (h : SlotMap.runCount s ops = some t) :
    t.1.len = t.1.entries.countP Entry.isOccupied
    ∧ s.len + t.2.1 = t.1.len + t.2.2 := by
  induction ops generalizing s t with
  | nil =>
    obtain rfl := (Option.some.inj h).symm
    exact ⟨hinv, rfl⟩
  | cons op rest ih =>
    cases op with
    | ins v =>
      rcases hI : s.insert v with - | r
      · rw [SlotMap.runCount, hI] at h
        exact absurd h (by simp)
      · rw [SlotMap.runCount, hI] at h
        obtain ⟨t', ht', rfl⟩ := Option.map_eq_some'.mp h
        obtain ⟨hlen, hocc⟩ := SlotMap.insert_len_occ hI
        obtain ⟨ih1, ih2⟩ := ih r.2 (by omega) t' ht'
        exact ⟨ih1, by simp only []; omega⟩
    | rem i g =>
      rcases hR : s.remove ⟨i, g⟩ with ⟨o, s'⟩
      cases o with
      | none =>
        rw [SlotMap.runCount, hR] at h
        obtain rfl := SlotMap.remove_none_elim hR
        exact ih _ hinv t h
      | some v =>
        rw [SlotMap.runCount, hR] at h
        obtain ⟨t', ht', rfl⟩ := Option.map_eq_some'.mp h
        obtain ⟨g', hE, hent, hlen⟩ := SlotMap.remove_some_elim hR
        have hpos : 0 < s.entries.countP Entry.isOccupied :=
          countP_pos_of_get Entry.isOccupied hE rfl
        have hocc : s'.entries.countP Entry.isOccupied + 1
            = s.entries.countP Entry.isOccupied := by
          rw [hent]
          exact countP_set_true_false Entry.isOccupied _ hE rfl rfl
        obtain ⟨ih1, ih2⟩ := ih s' (by omega) t' ht'
        exact ⟨ih1, by simp only []; omega⟩

/-- A non-panicking `Pool::insert` raises both the stored `len` field and the
number of occupied slots by one. -/
theorem pool_insert_len_occ {α : Type} {s : Pool α} {v : α}
    {r : Handle × Pool α} (h : s.insert v = some r) :
    r.2.len = s.len + 1
    ∧ r.2.slots.countP PSlot.isOccupied = s.slots.countP PSlot.isOccupied + 1 := by
  rcases hF : s.first_free with - | fi
  · simp only [Pool.insert, hF] at h
    obtain rfl := (Option.some.inj h).symm
    refine ⟨rfl, ?_⟩
    simp [List.countP_append, PSlot.isOccupied]
  · rcases hE : s.slots[fi]? with - | e
    · simp [Pool.insert, hF, hE] at h
    · rcases e with ⟨v', g⟩ | ⟨nf⟩
      · simp only [Pool.insert, hF, hE] at h
        obtain rfl := (Option.some.inj h).symm
        refine ⟨rfl, ?_⟩
        simp [List.countP_append, PSlot.isOccupied]
      · simp only [Pool.insert, hF, hE] at h
        obtain rfl := (Option.some.inj h).symm
        refine ⟨rfl, ?_⟩
        exact countP_set_false_true PSlot.isOccupied _ hE rfl rfl

/-- Case analysis of a successful `Pool::remove`. -/
theorem pool_remove_some_elim {α : Type} {s : Pool α} {h : Handle} {v : α}
    {s' : Pool α} (hr : s.remove h = (some v, s')) :
    ∃ g, s.slots[h.index]? = some (PSlot.occupied v g)
      ∧ s'.slots = s.slots.set h.index (PSlot.vacant s.first_free)
      ∧ s'.len = s.len - 1 := by
  rcases hE : s.slots[h.index]? with - | e
  · simp [Pool.remove, hE] at hr
  · rcases e with ⟨v', g⟩ | ⟨nf⟩
    · simp only [Pool.remove, hE] at hr
      by_cases hg : g = h.generation
      · rw [if_pos hg] at hr
        injection hr with h1 h2
        obtain rfl := Option.some.inj h1
        refine ⟨g, rfl, ?_, ?_⟩
        · rw [← h2]
        · rw [← h2]
      · rw [if_neg hg] at hr
        injection hr with h1 h2
        exact absurd h1 (by simp)
    · simp [Pool.remove, hE] at hr

/-- A failing `Pool::remove` leaves the pool untouched. -/
theorem pool_remove_none_elim {α : Type} {s : Pool α} {h : Handle}
    {s' : Pool α} (hr : s.remove h = (none, s')) : s' = s := by
  rcases hE : s.slots[h.index]? with - | e
  · simp only [Pool.remove, hE] at hr
    injection hr with h1 h2
    exact h2.symm
  · rcases e with ⟨v', g⟩ | ⟨nf⟩
    · simp only [Pool.remove, hE] at hr
      by_cases hg : g = h.generation
      · rw [if_pos hg] at hr
        injection hr with h1 h2
        exact absurd h1 (by simp)
      · rw [if_neg hg] at hr
        injection hr with h1 h2
        exact h2.symm
    · simp only [Pool.remove, hE] at hr
      injection hr with h1 h2
      exact h2.symm

/-- Run-length accounting for `Pool`, mirroring the `SlotMap` statement. -/
theorem pool_runCount_spec {α : Type} (ops : List (StoreOp α)) (s : Pool α)
    (hinv : s.len = s.slots.countP PSlot.isOccupied)
    (t : Pool α × Nat × Nat) (h : Pool.runCount s ops = some t) :
    t.1.len = t.1.slots.countP PSlot.isOccupied
    ∧ s.len + t.2.1 = t.1.len + t.2.2 := by
  induction ops generalizing s t with
  | nil =>
    obtain rfl := (Option.some.inj h).symm
    exact ⟨hinv, rfl⟩
  | cons op rest ih =>
    cases op with
    | ins v =>
      rcases hI : s.insert v with - | r
      · rw [Pool.runCount, hI] at h
        exact absurd h (by simp)
      · rw [Pool.runCount, hI] at h
        obtain ⟨t', ht', rfl⟩ := Option.map_eq_some'.mp h
        obtain ⟨hlen, hocc⟩ := pool_insert_len_occ hI
        obtain ⟨ih1, ih2⟩ := ih r.2 (by omega) t' ht'
        exact ⟨ih1, by simp only []; omega⟩
    | rem i g =>
      rcases hR : s.remove ⟨i, g⟩ with ⟨o, s'⟩
      cases o with
      | none =>
        rw [Pool.runCount, hR] at h
        obtain rfl := pool_remove_none_elim hR
        exact ih _ hinv t h
      | some v =>
        rw [Pool.runCount, hR] at h
        obtain ⟨t', ht', rfl⟩ := Option.map_eq_some'.mp h
        obtain ⟨g', hE, hent, hlen⟩ := pool_remove_some_elim hR
        have hpos : 0 < s.slots.countP PSlot.isOccupied :=
          countP_pos_of_get PSlot.isOccupied hE rfl
        have hocc : s'.slots.countP PSlot.isOccupied + 1
            = s.slots.countP PSlot.isOccupied := by
          rw [hent]
          exact countP_set_true_false PSlot.isOccupied _ hE rfl rfl
        obtain ⟨ih1, ih2⟩ := ih s' (by omega) t' ht'
        exact ⟨ih1, by simp only []; omega⟩

/-- C6: after any operation sequence run from the empty store, the stored
`len` field equals the number of inserts minus the number of successful
removes, and `is_empty` holds exactly when `len` is zero; this holds for both
`SlotMap` and `Pool`. -/
theorem len_counts_inserts_minus_removes :
    (∀ (α : Type) (ops : List (StoreOp α)) (t : SlotMap α × Nat × Nat),
      SlotMap.runCount SlotMap.new ops = some t →
      t.1.len = t.2.1 - t.2.2 ∧ (t.1.isEmpty = true ↔ t.1.len = 0))
    ∧ (∀ (α : Type) (ops : List (StoreOp α)) (t : Pool α × Nat × Nat),
      Pool.runCount Pool.new ops = some t →
      t.1.len = t.2.1 - t.2.2 ∧ (t.1.isEmpty = true ↔ t.1.len = 0)) := by
  constructor
  · intro α ops t h
    obtain ⟨-, h2⟩ := SlotMap.runCount_spec ops SlotMap.new rfl t h
    constructor
    · simp only [SlotMap.new] at h2
      omega
    · simp [SlotMap.isEmpty]
  · intro α ops t h
    obtain ⟨-, h2⟩ := pool_runCount_spec ops Pool.new rfl t h
    constructor
    · simp only [Pool.new] at h2
      omega
    · simp [Pool.isEmpty]

/-- Witness for C6 on the sequence insert 4, remove ⟨0, 0⟩, insert 6. -/
theorem len_counts_inserts_minus_removes_witness :
    ((⟨[Entry.occupied 6 1], none, 1⟩ : SlotMap Nat), 2, 1).1.len = 2 - 1
    ∧ (((⟨[Entry.occupied 6 1], none, 1⟩ : SlotMap Nat), 2, 1).1.isEmpty = true
        ↔ ((⟨[Entry.occupied 6 1], none, 1⟩ : SlotMap Nat), 2, 1).1.len = 0)
    ∧ ((⟨[PSlot.occupied 6 0], none, 1⟩ : Pool Nat), 2, 1).1.len = 2 - 1
    ∧ (((⟨[PSlot.occupied 6 0], none, 1⟩ : Pool Nat), 2, 1).1.isEmpty = true
        ↔ ((⟨[PSlot.occupied 6 0], none, 1⟩ : Pool Nat), 2, 1).1.len = 0) := by
  obtain ⟨a, b⟩ := len_counts_inserts_minus_removes.1 Nat
    [StoreOp.ins 4, StoreOp.rem 0 0, StoreOp.ins 6]
    ((⟨[Entry.occupied 6 1], none, 1⟩ : SlotMap Nat), 2, 1) rfl
  obtain ⟨c, d⟩ := len_counts_inserts_minus_removes.2 Nat
    [StoreOp.ins 4, StoreOp.rem 0 0, StoreOp.ins 6]
    ((⟨[PSlot.occupied 6 0], none, 1⟩ : Pool Nat), 2, 1) rfl
  exact ⟨a, b, c, d⟩

/-- A fresh allocation reads back the allocated value at the returned position. -/
theorem Arena.alloc_reads_value {α : Type} {a : Arena α} {v : α}
    {r : (Nat × Nat) × Arena α} (h : a.alloc v = some r) :
    r.2.readAt r.1 = some v := by
  rcases hc : (if a.needsNewChunk then a.chunks ++ [[]] else a.chunks).getLast? with - | c
  · simp [Arena.alloc, hc] at h
  · simp only [Arena.alloc, hc] at h
    obtain rfl := (Option.some.inj h).symm
    have hne : (if a.needsNewChunk then a.chunks ++ [[]] else a.chunks) ≠ [] := by
      intro hnil
      rw [hnil] at hc
      simp at hc
    have hlt : (if a.needsNewChunk then a.chunks ++ [[]] else a.chunks).length - 1
        < (if a.needsNewChunk then a.chunks ++ [[]] else a.chunks).length :=
      Nat.sub_lt (List.length_pos.mpr hne) Nat.one_pos
    simp [Arena.readAt, List.getElem?_set_self, hlt]

/-- One further allocation does not disturb any readable chunk position. -/
theorem Arena.alloc_preserves {α : Type} {a : Arena α} {v : α}
    {r : (Nat × Nat) × Arena α} (h : a.alloc v = some r)
    {p : Nat × Nat} {x : α} (hr : a.readAt p = some x) :
    r.2.readAt p = some x := by
  rcases hc1 : a.chunks[p.1]? with - | cp
  · simp [Arena.readAt, hc1] at hr
  · rw [Arena.readAt, hc1] at hr
    have hp1 : p.1 < a.chunks.length := lt_length_of_get_some hc1
    rcases hc : (if a.needsNewChunk then a.chunks ++ [[]] else a.chunks).getLast? with - | c
    · simp [Arena.alloc, hc] at h
    · simp only [Arena.alloc, hc] at h
      obtain rfl := (Option.some.inj h).symm
      by_cases hN : a.needsNewChunk
      · rw [if_pos hN] at hc ⊢
        have hk : (a.chunks ++ [[]]).length - 1 = a.chunks.length := by simp
        have hnk : p.1 ≠ (a.chunks ++ [[]]).length - 1 := by rw [hk]; omega
        rw [Arena.readAt]
        rw [List.getElem?_set_ne (fun he => hnk he.symm),
          List.getElem?_append_left hp1, hc1]
        exact hr
      · rw [if_neg hN] at hc ⊢
        by_cases hpk : p.1 = a.chunks.length - 1
        · have hcp : a.chunks[p.1]? = some c := by
            rw [hpk, ← List.getLast?_eq_getElem?]
            exact hc
          obtain rfl : cp = c := by
            rw [hc1] at hcp
            exact Option.some.inj hcp
          have hlt1 : a.chunks.length - 1 < a.chunks.length := by omega
          rw [Arena.readAt]
          simp only [hpk, List.getElem?_set_self, hlt1, List.length_set]
          rw [List.getElem?_append_left (lt_length_of_get_some hr)]
          exact hr
        · rw [Arena.readAt]
          rw [List.getElem?_set_ne (fun he => hpk he.symm), hc1]
          exact hr

/-- Any further sequence of allocations preserves every readable position. -/
theorem Arena.allocMany_preserves {α : Type} (vs : List α) (a a' : Arena α)
    (h : a.allocMany vs = some a') (p : Nat × Nat) (x : α)
    (hr : a.readAt p = some x) : a'.readAt p = some x := by
  induction vs generalizing a with
  | nil =>
    obtain rfl := Option.some.inj h
    exact hr
  | cons v rest ih =>
    rcases hA : a.alloc v with - | q
    · rw [Arena.allocMany, hA] at h
      exact absurd h (by simp)
    · rw [Arena.allocMany, hA] at h
      exact ih q.2 h (Arena.alloc_preserves hA hr)

/-- C8: a position handed out by `alloc` reads back the written value, and no
number of later `alloc` calls changes any previously readable position; only
`clear` can invalidate it. -/
theorem arena_chunk_stability :
    (∀ (α : Type) (a : Arena α) (v : α) (r : (Nat × Nat) × Arena α),
      a.alloc v = some r → r.2.readAt r.1 = some v)
    ∧ (∀ (α : Type) (a : Arena α) (vs : List α) (a' : Arena α) (p : Nat × Nat) (x : α),
      a.allocMany vs = some a' → a.readAt p = some x → a'.readAt p = some x) :=
  ⟨fun _ _ _ _ h => Arena.alloc_reads_value h,
   fun _ _ vs a' p x h hr => Arena.allocMany_preserves vs _ a' h p x hr⟩

/-- Witness for C8: allocate 1 into a fresh arena, then 2 and 3 after it. -/
theorem arena_chunk_stability_witness :
    Arena.readAt ⟨[[1]], 1024⟩ (0, 0) = some 1
    ∧ Arena.readAt ⟨[[1, 2, 3]], 1024⟩ (0, 0) = some 1 :=
  ⟨arena_chunk_stability.1 Nat Arena.new 1 ((0, 0), ⟨[[1]], 1024⟩) rfl,
   arena_chunk_stability.2 Nat ⟨[[1]], 1024⟩ [2, 3] ⟨[[1, 2, 3]], 1024⟩ (0, 0) 1 rfl rfl⟩

/-- Dropping the last element preserves lookups strictly before it. -/
theorem getElem?_dropLast_of_lt {γ : Type} {l : List γ} {e : Nat}
    (h : e < l.length - 1) : l.dropLast[e]? = l[e]? := by
  rw [List.dropLast_eq_take]
  simp [List.getElem?_take, h]

/-- The sparse-array resize in `SparseSet::insert` preserves existing cells. -/
theorem resize_get_lt {γ : Type} (l : List γ) (pad : γ) (index j : Nat)
    (hj : j < l.length) :
    (if l.length ≤ index then l ++ List.replicate (index + 1 - l.length) pad
      else l)[j]? = l[j]? := by
  by_cases hle : l.length ≤ index
  · rw [if_pos hle, List.getElem?_append_left hj]
  · rw [if_neg hle]

/-- A cell of the resized sparse array holding an occupied mapping already
held it before the resize (the padding is `none`). -/
theorem resize_get_occ {index j d : Nat} (l : List (Option Nat))
    (h : (if l.length ≤ index then l ++ List.replicate (index + 1 - l.length) none
      else l)[j]? = some (some d)) : l[j]? = some (some d) := by
  by_cases hle : l.length ≤ index
  · rw [if_pos hle] at h
    by_cases hj : j < l.length
    · rw [List.getElem?_append_left hj] at h
      exact h
    · rw [List.getElem?_append_right (Nat.le_of_not_lt hj)] at h
      rw [List.getElem?_replicate] at h
      by_cases hcond : j - l.length < index + 1 - l.length
      · rw [if_pos hcond] at h
        exact absurd h (by simp)
      · rw [if_neg hcond] at h
        exact absurd h (by simp)
  · rw [if_neg hle] at h
    exact h

/-- The queried index is always in range of the resized sparse array. -/
theorem resize_index_lt {γ : Type} (l : List γ) (pad : γ) (index : Nat)
    (hlt : index < l.length ∨ l.length ≤ index) :
    index <
      (if l.length ≤ index then l ++ List.replicate (index + 1 - l.length) pad
        else l).length := by
  by_cases hle : l.length ≤ index
  · rw [if_pos hle]
    simp only [List.length_append, List.length_replicate]
    omega
  · rw [if_neg hle]
    omega

/-- The empty sparse set satisfies the consistency invariant. -/
theorem SparseSet.inv_new {α : Type} : (SparseSet.new : SparseSet α).Inv := by
  constructor
  · intro d q hq
    simp [SparseSet.new] at hq
  · intro i d hi
    simp [SparseSet.new] at hi

/-- On an invariant-satisfying state, `SparseSet::insert` cannot panic and
preserves the invariant. -/
theorem SparseSet.insert_inv {α : Type} {s : SparseSet α} (hs : s.Inv)
    (index : Nat) (v : α) :
    ∃ s', s.insert index v = some s' ∧ s'.Inv := by
  rcases hsp : (if s.sparse.length ≤ index
      then s.sparse ++ List.replicate (index + 1 - s.sparse.length) none
      else s.sparse)[index]? with - | o
  · have hlt : index <
        (if s.sparse.length ≤ index
          then s.sparse ++ List.replicate (index + 1 - s.sparse.length) none
          else s.sparse).length :=
      resize_index_lt s.sparse none index (by omega)
    rw [List.getElem?_eq_none_iff] at hsp
    omega
  · cases o with
    | some d =>
      have hsd : s.sparse[index]? = some (some d) := resize_get_occ s.sparse hsp
      obtain ⟨q, hq, hq1⟩ := hs.sparse_to_dense index d hsd
      have hd : d < s.dense.length := lt_length_of_get_some hq
      refine ⟨⟨(if s.sparse.length ≤ index
          then s.sparse ++ List.replicate (index + 1 - s.sparse.length) none
          else s.sparse), s.dense.set d (q.1, v)⟩, ?_, ?_⟩
      · simp only [SparseSet.insert, hsp, hq]
      · constructor
        · intro e p hp
          by_cases hed : e = d
          · subst hed
            rw [List.getElem?_set_self hd] at hp
            obtain rfl := (Option.some.inj hp).symm
            rw [hq1]
            exact hsp
          · rw [List.getElem?_set_ne (Ne.symm hed)] at hp
            have hps := hs.dense_to_sparse e p hp
            rw [resize_get_lt s.sparse none index p.1 (lt_length_of_get_some hps)]
            exact hps
        · intro j e hj
          have hje : s.sparse[j]? = some (some e) := resize_get_occ s.sparse hj
          obtain ⟨p, hp, hp1⟩ := hs.sparse_to_dense j e hje
          by_cases hed : e = d
          · subst hed
            obtain rfl : p = q := Option.some.inj (hp.symm.trans hq)
            exact ⟨(p.1, v), by rw [List.getElem?_set_self hd], hp1⟩
          · exact ⟨p, by rw [List.getElem?_set_ne (Ne.symm hed)]; exact hp, hp1⟩
    | none =>
      refine ⟨⟨(if s.sparse.length ≤ index
          then s.sparse ++ List.replicate (index + 1 - s.sparse.length) none
          else s.sparse).set index (some s.dense.length),
          s.dense ++ [(index, v)]⟩, ?_, ?_⟩
      · simp only [SparseSet.insert, hsp]
      · have hidx : index <
            (if s.sparse.length ≤ index
              then s.sparse ++ List.replicate (index + 1 - s.sparse.length) none
              else s.sparse).length :=
          resize_index_lt s.sparse none index (by omega)
        constructor
        · intro e p hp
          by_cases he : e < s.dense.length
          · rw [List.getElem?_append_left he] at hp
            have hps := hs.dense_to_sparse e p hp
            have hp1 : p.1 < s.sparse.length := lt_length_of_get_some hps
            have hpne : p.1 ≠ index := by
              intro heq
              rw [heq] at hp1 hps
              rw [resize_get_lt s.sparse none index index hp1, hps] at hsp
              exact absurd (Option.some.inj hsp) (by simp)
            rw [List.getElem?_set_ne (Ne.symm hpne),
              resize_get_lt s.sparse none index p.1 hp1]
            exact hps
          · rw [List.getElem?_append_right (Nat.le_of_not_lt he)] at hp
            rcases hk : e - s.dense.length with - | k
            · rw [hk] at hp
              obtain rfl : p = (index, v) := by simpa using hp.symm
              have he' : e = s.dense.length := by omega
              subst he'
              exact List.getElem?_set_self hidx
            · rw [hk] at hp
              simp at hp
        · intro j e hj
          by_cases hji : j = index
          · subst hji
            rw [List.getElem?_set_self hidx] at hj
            obtain rfl : s.dense.length = e := by simpa using hj
            exact ⟨(j, v), by
              rw [List.getElem?_append_right (Nat.le_refl _)]
              simp, rfl⟩
          · rw [List.getElem?_set_ne (Ne.symm hji)] at hj
            have hje : s.sparse[j]? = some (some e) := resize_get_occ s.sparse hj
            obtain ⟨p, hp, hp1⟩ := hs.sparse_to_dense j e hje
            exact ⟨p, by
              rw [List.getElem?_append_left (lt_length_of_get_some hp)]
              exact hp, hp1⟩

/-- On an invariant-satisfying state, `SparseSet::remove` cannot panic and
preserves the invariant. -/
theorem SparseSet.remove_inv {α : Type} {s : SparseSet α} (hs : s.Inv)
    (index : Nat) :
    ∃ r, s.remove index = some r ∧ (r.2 : SparseSet α).Inv := by
  by_cases hlen : s.sparse.length ≤ index
  · exact ⟨(none, s), by rw [SparseSet.remove, if_pos hlen], hs⟩
  · rcases hsx : s.sparse[index]? with - | o
    · rw [List.getElem?_eq_none_iff] at hsx
      omega
    · cases o with
      | none =>
        exact ⟨(none, s), by rw [SparseSet.remove, if_neg hlen, hsx], hs⟩
      | some d =>
        obtain ⟨q, hq, hq1⟩ := hs.sparse_to_dense index d hsx
        have hd : d < s.dense.length := lt_length_of_get_some hq
        rcases hl : s.dense[s.dense.length - 1]? with - | lq
        · rw [List.getElem?_eq_none_iff] at hl
          omega
        have hgetD : s.dense.getLastD q = lq := by
          rw [List.getLastD_eq_getLast?, List.getLast?_eq_getElem?, hl]
          rfl
        have hNget : ∀ e, e < s.dense.length - 1 →
            ((s.dense.set d lq).dropLast)[e]?
              = if e = d then some lq else s.dense[e]? := by
          intro e he
          rw [getElem?_dropLast_of_lt (by rw [List.length_set]; exact he)]
          by_cases hed : e = d
          · subst hed
            rw [List.getElem?_set_self hd, if_pos rfl]
          · rw [List.getElem?_set_ne (Ne.symm hed), if_neg hed]
        by_cases hcase : d < s.dense.length - 1
        · have hmoved : ((s.dense.set d lq).dropLast)[d]? = some lq := by
            rw [hNget d hcase, if_pos rfl]
          have hlq_sp : s.sparse[lq.1]? = some (some (s.dense.length - 1)) :=
            hs.dense_to_sparse _ _ hl
          have hlq_lt : lq.1 < s.sparse.length := lt_length_of_get_some hlq_sp
          have hlqi : lq.1 ≠ index := by
            intro heq
            rw [heq, hsx] at hlq_sp
            have := Option.some.inj (Option.some.inj hlq_sp)
            omega
          refine ⟨(some q.2,
            ⟨(s.sparse.set index none).set lq.1 (some d),
              (s.dense.set d lq).dropLast⟩), ?_, ?_⟩
          · simp only [SparseSet.remove, if_neg hlen, hsx, hq, hgetD,
              List.length_dropLast, List.length_set, if_pos hcase, hmoved,
              if_pos hlq_lt]
          · constructor
            · intro e p hp
              have heL : e < s.dense.length - 1 := by
                have := lt_length_of_get_some hp
                simpa using this
              rw [hNget e heL] at hp
              by_cases hed : e = d
              · subst hed
                rw [if_pos rfl] at hp
                have hplq : p = lq := (Option.some.inj hp).symm
                rw [hplq]
                have hb : lq.1 < ((s.sparse.set index none)).length := by
                  rw [List.length_set]
                  exact hlq_lt
                exact List.getElem?_set_self hb
              · rw [if_neg hed] at hp
                have hps := hs.dense_to_sparse e p hp
                have hpne_lq : p.1 ≠ lq.1 := by
                  intro heq
                  rw [heq, hlq_sp] at hps
                  have := Option.some.inj (Option.some.inj hps)
                  omega
                have hpne_i : p.1 ≠ index := by
                  intro heq
                  rw [heq, hsx] at hps
                  have := Option.some.inj (Option.some.inj hps)
                  exact hed this.symm
                rw [List.getElem?_set_ne (Ne.symm hpne_lq),
                  List.getElem?_set_ne (Ne.symm hpne_i)]
                exact hps
            · intro j e hj
              by_cases hjlq : j = lq.1
              · subst hjlq
                have hb : lq.1 < ((s.sparse.set index none)).length := by
                  rw [List.length_set]
                  exact hlq_lt
                rw [List.getElem?_set_self hb] at hj
                obtain rfl : d = e := by simpa using hj
                exact ⟨lq, hmoved, rfl⟩
              · rw [List.getElem?_set_ne (Ne.symm hjlq)] at hj
                by_cases hji : j = index
                · subst hji
                  rw [List.getElem?_set_self (by omega)] at hj
                  exact absurd (Option.some.inj hj) (by simp)
                · rw [List.getElem?_set_ne (Ne.symm hji)] at hj
                  obtain ⟨p, hp, hp1⟩ := hs.sparse_to_dense j e hj
                  have heD : e ≠ d := by
                    intro heq
                    subst heq
                    obtain rfl : p = q := Option.some.inj (hp.symm.trans hq)
                    exact hji (hp1.symm.trans hq1)
                  have heLast : e ≠ s.dense.length - 1 := by
                    intro heq
                    subst heq
                    obtain rfl : p = lq := Option.some.inj (hp.symm.trans hl)
                    exact hjlq hp1.symm
                  have heL : e < s.dense.length := lt_length_of_get_some hp
                  refine ⟨p, ?_, hp1⟩
                  rw [hNget e (by omega), if_neg heD]
                  exact hp
        · have hdl : d = s.dense.length - 1 := by omega
          refine ⟨(some q.2,
            ⟨s.sparse.set index none, (s.dense.set d lq).dropLast⟩), ?_, ?_⟩
          · simp only [SparseSet.remove, if_neg hlen, hsx, hq, hgetD,
              List.length_dropLast, List.length_set, if_neg hcase]
          · constructor
            · intro e p hp
              have heL : e < s.dense.length - 1 := by
                have := lt_length_of_get_some hp
                simpa using this
              rw [hNget e heL, if_neg (by omega)] at hp
              have hps := hs.dense_to_sparse e p hp
              have hpne_i : p.1 ≠ index := by
                intro heq
                rw [heq, hsx] at hps
                have := Option.some.inj (Option.some.inj hps)
                omega
              rw [List.getElem?_set_ne (Ne.symm hpne_i)]
              exact hps
            · intro j e hj
              by_cases hji : j = index
              · subst hji
                rw [List.getElem?_set_self (by omega)] at hj
                exact absurd (Option.some.inj hj) (by simp)
              · rw [List.getElem?_set_ne (Ne.symm hji)] at hj
                obtain ⟨p, hp, hp1⟩ := hs.sparse_to_dense j e hj
                have heD : e ≠ d := by
                  intro heq
                  subst heq
                  obtain rfl : p = q := Option.some.inj (hp.symm.trans hq)
                  exact hji (hp1.symm.trans hq1)
                have heL : e < s.dense.length := lt_length_of_get_some hp
                refine ⟨p, ?_, hp1⟩
                rw [hNget e (by omega), if_neg heD]
                exact hp

/-- Every reachable sparse-set state satisfies the consistency invariant. -/
theorem SparseSet.reachable_inv {α : Type} {s : SparseSet α}
    (h : s.Reachable) : s.Inv := by
  induction h with
  | new => exact SparseSet.inv_new
  | @insert s s' i v hr hins ih =>
    obtain ⟨s'', h1, h2⟩ := SparseSet.insert_inv ih i v
    rw [hins] at h1
    obtain rfl := Option.some.inj h1
    exact h2
  | @remove s i r hr hrem ih =>
    obtain ⟨r', h1, h2⟩ := SparseSet.remove_inv ih i
    rw [hrem] at h1
    obtain rfl := Option.some.inj h1
    exact h2

/-- On an invariant-satisfying state, `SparseSet::get` cannot panic. -/
theorem SparseSet.get_total {α : Type} {s : SparseSet α} (hs : s.Inv)
    (i : Nat) : (s.get i).isSome := by
  rcases hsx : s.sparse[i]? with - | o
  · simp [SparseSet.get, hsx]
  · cases o with
    | none => simp [SparseSet.get, hsx]
    | some d =>
      obtain ⟨q, hq, -⟩ := hs.sparse_to_dense i d hsx
      simp [SparseSet.get, hsx, hq]

/-- On an invariant-satisfying state, `SparseSet::get_mut` cannot panic. -/
theorem SparseSet.getMut_total {α : Type} {s : SparseSet α} (hs : s.Inv)
    (i : Nat) : (s.getMut i).isSome := by
  rcases hsx : s.sparse[i]? with - | o
  · simp [SparseSet.getMut, hsx]
  · cases o with
    | none => simp [SparseSet.getMut, hsx]
    | some d =>
      obtain ⟨q, hq, -⟩ := hs.sparse_to_dense i d hsx
      simp [SparseSet.getMut, hsx, hq]

/-- C7: in every reachable sparse-set state, each dense row's key maps back
to it through the sparse array, and every occupied sparse cell points at a
dense position in range. -/
theorem sparseSet_bijection {α : Type} (s : SparseSet α) (h : s.Reachable) :
    (∀ (d : Nat) (q : Nat × α), s.dense[d]? = some q →
      s.sparse[q.1]? = some (some d))
    ∧ (∀ (i d : Nat), s.sparse[i]? = some (some d) → d < s.dense.length) := by
  have hinv := SparseSet.reachable_inv h
  refine ⟨hinv.dense_to_sparse, ?_⟩
  intro i d hx
  obtain ⟨q, hq, -⟩ := hinv.sparse_to_dense i d hx
  exact lt_length_of_get_some hq

/-- Witness for C7 at the reachable state reached by inserting key 2. -/
theorem sparseSet_bijection_witness :
    (∀ (d : Nat) (q : Nat × Bool),
      (⟨[none, none, some 0], [(2, true)]⟩ : SparseSet Bool).dense[d]? = some q →
      (⟨[none, none, some 0], [(2, true)]⟩ : SparseSet Bool).sparse[q.1]?
        = some (some d))
    ∧ (∀ (i d : Nat),
      (⟨[none, none, some 0], [(2, true)]⟩ : SparseSet Bool).sparse[i]?
          = some (some d) →
      d < (⟨[none, none, some 0], [(2, true)]⟩ : SparseSet Bool).dense.length) :=
  sparseSet_bijection ⟨[none, none, some 0], [(2, true)]⟩
    (@SparseSet.Reachable.insert Bool SparseSet.new
      ⟨[none, none, some 0], [(2, true)]⟩ 2 true SparseSet.Reachable.new rfl)

/-- C10: in every reachable sparse-set state, the direct dense indexing done
by `get`, `get_mut` and `remove` is in bounds — none of the three can hit the
out-of-bounds panic, for any queried index. -/
theorem sparseSet_indexing_safe {α : Type} (s : SparseSet α) (h : s.Reachable)
    (i : Nat) :
    (s.get i).isSome ∧ (s.getMut i).isSome ∧ (s.remove i).isSome := by
  have hinv := SparseSet.reachable_inv h
  refine ⟨SparseSet.get_total hinv i, SparseSet.getMut_total hinv i, ?_⟩
  obtain ⟨r, hr, -⟩ := SparseSet.remove_inv hinv i
  rw [hr]
  rfl

/-- Witness for C10 at the reachable state reached by inserting key 1. -/
theorem sparseSet_indexing_safe_witness :
    ((⟨[none, some 0], [(1, 5)]⟩ : SparseSet Nat).get 0).isSome
    ∧ ((⟨[none, some 0], [(1, 5)]⟩ : SparseSet Nat).getMut 0).isSome
    ∧ ((⟨[none, some 0], [(1, 5)]⟩ : SparseSet Nat).remove 0).isSome :=
  sparseSet_indexing_safe ⟨[none, some 0], [(1, 5)]⟩
    (@SparseSet.Reachable.insert Nat SparseSet.new
      ⟨[none, some 0], [(1, 5)]⟩ 1 5 SparseSet.Reachable.new rfl) 0

end Synarion
